import Mathlib

/-!
Shallow embedding of the `@tfpkgr/utils` package (TypeScript) and proofs
about its behaviour.  Strings are modelled as `List Char`; JavaScript
string primitives (`slice` with negative arguments, `split`, `repeat`,
`padStart`, `endsWith`/`startsWith`) are modelled faithfully, including
the JavaScript quirk that `-0 === 0`, so `slice(-0)` is `slice(0)` (the
whole string) and `slice(0, -0)` is `slice(0, 0)` (the empty string).
Numbers that appear (lengths, indices, bytes, timestamps) are
non-negative integers, so they are modelled by `Nat`.
-/

namespace TfUtils

/-- Model of the JavaScript expression `str.slice(-e)` for a non-negative
integer `e`: for `e = 0` the argument is `-0 === 0`, so the whole string
is returned; otherwise the last `e` characters (clamped at the start). -/
def jsSliceNeg (s : List Char) (e : Nat) : List Char :=
  if e = 0 then s else s.drop (s.length - e)

/-- Model of the JavaScript expression `str.slice(0, -n)` for a
non-negative integer `n`: for `n = 0` the end index is `-0 === 0`, so the
result is empty; otherwise all but the last `n` characters. -/
def jsSliceToNeg (s : List Char) (n : Nat) : List Char :=
  if n = 0 then [] else s.take (s.length - n)

/-- Embedding of `Obscure.obscure(str, start, end, mask)` from
`unnamed/part_001` (the negative-argument guard cannot fire for `Nat`
arguments, so it is not represented):
if `str.length <= start + end` the string is returned unchanged,
otherwise `str.slice(0, start) + mask.repeat(str.length - start - end)
+ str.slice(-end)`. -/
def obscure (s : List Char) (start e : Nat) (mask : List Char) : List Char :=
  if s.length ≤ start + e then s
  else s.take start ++ (List.replicate (s.length - start - e) mask).flatten ++ jsSliceNeg s e

/-- Concatenated length of `n` copies of `m`. -/
theorem length_join_replicate (n : Nat) (m : List Char) :
    ((List.replicate n m).flatten).length = n * m.length := by
  induction n with
  | zero => simp
  | succ k ih => simp [List.replicate_succ, ih, Nat.succ_mul, Nat.add_comm]

/-- C9: when `start + end` is at least the length of the string,
`obscure` returns the string unchanged. -/
theorem obscure_short_id (s : List Char) (start e : Nat) (mask : List Char)
    (h : s.length ≤ start + e) : obscure s start e mask = s := by
  simp [obscure, h]

/-- Witness for C9 at the concrete input `obscure('ab', 2, 2, '*')`. -/
theorem obscure_short_id_witness : obscure "ab".toList 2 2 ['*'] = "ab".toList :=
  obscure_short_id "ab".toList 2 2 ['*'] (by decide)

/-- C2: evaluation of `obscure('abcd', 1, 0, '*')`.  Because
`str.slice(-0)` is the whole string, the visible suffix for `end = 0` is
the entire input, so the code returns `'a***abcd'` instead of the
documented `'a***'`. -/
theorem obscure_end_zero_eval : obscure "abcd".toList 1 0 ['*'] = "a***abcd".toList := by
  decide

/-- C10 counterexample: at `obscure('abc', 1, 0, 'xy')` the output
length is 8, not `start + end + mask.length * (len - start - end) = 5`,
because for `end = 0` the whole input is appended as the visible
suffix. -/
theorem obscure_mask_len_cex :
    (obscure "abc".toList 1 0 "xy".toList).length ≠
      1 + 0 + "xy".toList.length * ("abc".toList.length - 1 - 0) := by
  decide

/-- C10 amended: for `end ≥ 1` (so that `slice(-end)` really is the last
`end` characters) and `start + end < len`, the masked middle is the whole
mask string repeated `len - start - end` times and the output length is
`start + end + mask.length * (len - start - end)`. -/
theorem obscure_mask_len (s : List Char) (start e : Nat) (m : List Char)
    (he : 1 ≤ e) (h : start + e < s.length) :
    obscure s start e m =
      s.take start ++ (List.replicate (s.length - start - e) m).flatten ++ s.drop (s.length - e) ∧
    (obscure s start e m).length = start + e + m.length * (s.length - start - e) := by
  have h2 : ¬ (s.length ≤ start + e) := by omega
  have he' : e ≠ 0 := by omega
  have hform : obscure s start e m =
      s.take start ++ (List.replicate (s.length - start - e) m).flatten ++ s.drop (s.length - e) := by
    simp [obscure, h2, jsSliceNeg, he']
  refine ⟨hform, ?_⟩
  rw [hform]
  have hj := length_join_replicate (s.length - start - e) m
  simp only [List.length_append, List.length_take, List.length_drop, hj]
  have := Nat.mul_comm (s.length - start - e) m.length
  omega

/-- Witness for C10's amended statement at `obscure('abcde', 1, 1, 'xy')`:
the output length is `1 + 1 + 2 * 3 = 8`. -/
theorem obscure_mask_len_witness : (obscure "abcde".toList 1 1 "xy".toList).length = 8 :=
  (obscure_mask_len "abcde".toList 1 1 "xy".toList (by decide) (by decide)).2.trans (by decide)

/-- Model of the JavaScript `str.split(sep)` for a one-character
separator: splits at every occurrence, keeping empty segments, and
returns `[str]` when the separator does not occur (`''.split(c)` is
`['']`). -/
def splitAtChar (c : Char) : List Char → List (List Char)
  | [] => [[]]
  | x :: xs =>
    if x = c then [] :: splitAtChar c xs
    else
      match splitAtChar c xs with
      | [] => [[x]]
      | h :: t => (x :: h) :: t

/-- Embedding of `Obscure.email()` from `unnamed/part_001`: if the
string has no `'@'`, fall back to `obscure(str, 2, 2)`; otherwise
destructure `str.split('@')` into its first two elements and return
`maskedLocalPart + '@' + domain`.  When the destructured `domain` would
be JavaScript `undefined` (a split with fewer than two segments, which
cannot happen once `'@'` occurs) the template literal would print the
text `undefined`; those unreachable branches are modelled the same
way. -/
def email (s : List Char) : List Char :=
  if s.contains '@' = false then obscure s 2 2 ['*']
  else
    match splitAtChar '@' s with
    | [] => obscure [] 2 2 ['*'] ++ '@' :: "undefined".toList
    | [lp] => obscure lp 2 2 ['*'] ++ '@' :: "undefined".toList
    | lp :: dom :: _ => obscure lp 2 2 ['*'] ++ '@' :: dom

/-- C4 counterexample: `email('ab@cd@ef')` returns `'ab@cd'`, not the
claimed `'ab@cd@ef'` (which would keep everything after the first
`'@'`): the destructuring of `split('@')` keeps only the segment
between the first and second `'@'`. -/
theorem email_multi_at_cex : email "ab@cd@ef".toList ≠ "ab@cd@ef".toList := by
  decide

/-- The result list of `splitAtChar` is never empty. -/
theorem splitAtChar_ne_nil (c : Char) (s : List Char) : splitAtChar c s ≠ [] := by
  induction s with
  | nil => simp [splitAtChar]
  | cons x xs ih =>
    by_cases hx : x = c
    · simp [splitAtChar, hx]
    · simp only [splitAtChar, hx, if_false]
      cases hs : splitAtChar c xs with
      | nil => simp
      | cons h t => simp

/-- The first segment produced by `splitAtChar` is the longest prefix
free of the separator. -/
theorem splitAtChar_head (c : Char) (s : List Char) :
    (splitAtChar c s).head? = some (s.takeWhile (fun x => x ≠ c)) := by
  induction s with
  | nil => simp [splitAtChar, List.takeWhile]
  | cons x xs ih =>
    by_cases hx : x = c
    · simp [splitAtChar, hx, List.takeWhile_cons]
    · simp only [splitAtChar, hx, if_false]
      cases hs : splitAtChar c xs with
      | nil => exact absurd hs (splitAtChar_ne_nil c xs)
      | cons h t =>
        rw [hs] at ih
        simp only [List.head?_cons, Option.some.injEq] at ih
        simp [List.takeWhile_cons, hx, ih]

/-- Unfolding of `splitAtChar` at the first occurrence of the
separator: the head segment is the separator-free prefix and the tail
segments are a split of what follows the first occurrence. -/
theorem splitAtChar_of_mem (c : Char) (s : List Char) (h : c ∈ s) :
    splitAtChar c s =
      s.takeWhile (fun x => x ≠ c) :: splitAtChar c ((s.dropWhile (fun x => x ≠ c)).tail) := by
  induction s with
  | nil => simp at h
  | cons x xs ih =>
    by_cases hx : x = c
    · subst hx
      simp [splitAtChar, List.takeWhile_cons, List.dropWhile_cons]
    · have hmem : c ∈ xs := by
        rcases List.mem_cons.mp h with h1 | h1
        · exact absurd h1.symm hx
        · exact h1
      have ihx := ih hmem
      simp only [splitAtChar, hx, if_false, ihx]
      simp [List.takeWhile_cons, List.dropWhile_cons, hx]

/-- C4 amended: when the string contains `'@'`, the local part is the
text before the first `'@'` and the reported domain is only the text
between the first and second `'@'` (everything from a second `'@'` on is
dropped); the local part is masked with `obscure(·, 2, 2, '*')` and the
domain is untouched. -/
theorem email_split_at (s : List Char) (h : s.contains '@' = true) :
    email s =
      obscure (s.takeWhile (fun x => x ≠ '@')) 2 2 ['*'] ++
        '@' :: ((s.dropWhile (fun x => x ≠ '@')).tail.takeWhile (fun x => x ≠ '@')) := by
  have hmem : '@' ∈ s := by simpa using h
  have hsplit := splitAtChar_of_mem '@' s hmem
  have hhead := splitAtChar_head '@' ((s.dropWhile (fun x => x ≠ '@')).tail)
  unfold email
  rw [h]
  simp only [Bool.true_eq_false, if_false]
  rw [hsplit]
  cases hs2 : splitAtChar '@' ((s.dropWhile (fun x => x ≠ '@')).tail) with
  | nil => exact absurd hs2 (splitAtChar_ne_nil _ _)
  | cons d t =>
    rw [hs2] at hhead
    simp only [List.head?_cons, Option.some.injEq] at hhead
    simp [hhead]

/-- Witness for C4's amended statement at `email('ab@cd@ef')`: the
result is `'ab@cd'`. -/
theorem email_split_at_witness : email "ab@cd@ef".toList = "ab@cd".toList :=
  (email_split_at "ab@cd@ef".toList (by decide)).trans (by decide)

/-- Decimal digits of a natural number, big-endian, with the number
itself as structural fuel (a number `n ≥ 1` has at most `n` decimal
digits). -/
def natToDecAux : Nat → Nat → List Char
  | 0, _ => []
  | fuel + 1, n => if n = 0 then [] else natToDecAux fuel (n / 10) ++ [Char.ofNat (48 + n % 10)]

/-- Model of JavaScript `String(n)` for an integral number value. -/
def natToDec (n : Nat) : List Char :=
  if n = 0 then ['0'] else natToDecAux n n

/-- Model of JavaScript `String(i)` for an integral number value,
possibly negative. -/
def intToDec (i : Int) : List Char :=
  if i < 0 then '-' :: natToDec i.natAbs else natToDec i.natAbs

/-- Characters that `encodeURIComponent` leaves unescaped:
`A-Z a-z 0-9 - _ . ! ~ * ' ( )`. -/
def isUnreservedURI (c : Char) : Bool :=
  c.isAlpha || c.isDigit || c == '-' || c == '_' || c == '.' || c == '!' ||
    c == '~' || c == '*' || c == Char.ofNat 39 || c == '(' || c == ')'

/-- UTF-8 bytes of a single code point. -/
def utf8Bytes (c : Char) : List Nat :=
  let n := c.toNat
  if n < 128 then [n]
  else if n < 2048 then [192 + n / 64, 128 + n % 64]
  else if n < 65536 then [224 + n / 4096, 128 + (n / 64) % 64, 128 + n % 64]
  else [240 + n / 262144, 128 + (n / 4096) % 64, 128 + (n / 64) % 64, 128 + n % 64]

/-- Upper-case hexadecimal digit, as used by `encodeURIComponent`. -/
def hexDigitUpper (n : Nat) : Char :=
  if n < 10 then Char.ofNat (48 + n) else Char.ofNat (55 + n)

/-- Model of the JavaScript builtin `encodeURIComponent`: unreserved
characters pass through, every other character is replaced by the
percent-encoding of its UTF-8 bytes. -/
def encodeURIComponent (s : List Char) : List Char :=
  s.flatMap (fun c =>
    if isUnreservedURI c then [c]
    else (utf8Bytes c).flatMap (fun b => ['%', hexDigitUpper (b / 16), hexDigitUpper (b % 16)]))

/-- Primitive query-parameter values (`string | number | boolean | null
| undefined` from `unnamed/part_002`); number values are modelled as
integers. -/
inductive JSPrim where
  | str (s : List Char)
  | num (n : Int)
  | boolean (b : Bool)
  | null
  | undef
deriving DecidableEq

/-- A query-parameter value: a primitive or an array of primitives.
Object values (only relevant to the `serializeObjects` option, which no
claim touches) are outside this embedding. -/
inductive JSVal where
  | prim (p : JSPrim)
  | arr (xs : List JSPrim)
deriving DecidableEq

/-- Embedding of `normalizeValue` from `unnamed/part_002` restricted to
primitive values: null and undefined become the empty string, booleans
become `true`/`false`, numbers and strings go through `String(·)`. -/
def normalizeValue : JSPrim → List Char
  | JSPrim.null => []
  | JSPrim.undef => []
  | JSPrim.boolean true => "true".toList
  | JSPrim.boolean false => "false".toList
  | JSPrim.num n => intToDec n
  | JSPrim.str s => s

/-- The `arrayType` option of `stringifyParams`; `plain` models the
default value `'none'` (each element as its own key-value pair). -/
inductive ArrayMode where
  | comma
  | bracket
  | plain
  | exclude
deriving DecidableEq

/-- The `returnType` option of `stringifyParams`. -/
inductive RetKind where
  | str
  | urlSearchParams
deriving DecidableEq

/-- Result of `stringifyParams`: a query string, or the ordered
key-value pair list an `URLSearchParams` object would be built from. -/
inductive StringifyResult where
  | str (s : List Char)
  | searchParams (pairs : List (List Char × List Char))
deriving DecidableEq

/-- The key-value pair list built by the main loop of `stringifyParams`
(`unnamed/part_002`, lines 120-149). -/
def buildPairs (params : List (List Char × JSVal)) (arrayMode : ArrayMode) :
    List (List Char × List Char) :=
  params.flatMap (fun kv =>
    let ek := encodeURIComponent kv.1
    match kv.2 with
    | JSVal.arr xs =>
      if arrayMode = ArrayMode.exclude then []
      else
        let evs := xs.map (fun x => encodeURIComponent (normalizeValue x))
        match arrayMode with
        | ArrayMode.comma => [(ek, List.intercalate [','] evs)]
        | ArrayMode.bracket => evs.map (fun ev => (ek ++ "[]".toList, ev))
        | _ => evs.map (fun ev => (ek, ev))
    | JSVal.prim p => [(ek, encodeURIComponent (normalizeValue p))])

/-- Embedding of `stringifyParams` from `unnamed/part_002`.  The
`params` argument is the entry list of a plain object, so the
`validateParams` guard cannot fire and is not represented; `separator`
arrives already defaulted (`'&'` when the option is absent). -/
def stringifyParams (params : List (List Char × JSVal)) (separator : List Char)
    (arrayMode : ArrayMode) (returnKind : RetKind) : Except Unit StringifyResult :=
  if returnKind = RetKind.str ∧ (separator.length = 0 ∨ '=' ∈ separator) then
    Except.error ()
  else
    let pairs := buildPairs params arrayMode
    if returnKind = RetKind.urlSearchParams then
      Except.ok (StringifyResult.searchParams pairs)
    else
      Except.ok (StringifyResult.str
        (List.intercalate separator (pairs.map (fun kv => kv.1 ++ '=' :: kv.2))))

/-- Decidable equality for `Except` results, used to evaluate concrete
runs of the embedded functions. -/
instance {ε α : Type} [DecidableEq ε] [DecidableEq α] : DecidableEq (Except ε α) := by
  intro a b
  cases a with
  | error x =>
    cases b with
    | error y =>
      exact if h : x = y then isTrue (by rw [h]) else isFalse (fun hc => h (by injection hc))
    | ok y => exact isFalse (fun hc => Except.noConfusion hc)
  | ok x =>
    cases b with
    | error y => exact isFalse (fun hc => Except.noConfusion hc)
    | ok y =>
      exact if h : x = y then isTrue (by rw [h]) else isFalse (fun hc => h (by injection hc))

/-- C8: `stringifyParams` fails with the InvalidSeparator error exactly
when the return type is the string form and the separator is empty or
contains `'='`; in the URLSearchParams form no separator validation
happens. -/
theorem stringifyParams_sep_error (params : List (List Char × JSVal)) (sep : List Char)
    (am : ArrayMode) (rk : RetKind) :
    stringifyParams params sep am rk = Except.error () ↔
      rk = RetKind.str ∧ (sep = [] ∨ '=' ∈ sep) := by
  unfold stringifyParams
  by_cases h : rk = RetKind.str ∧ (sep.length = 0 ∨ '=' ∈ sep)
  · rw [if_pos h]
    constructor
    · intro _
      exact ⟨h.1, h.2.imp List.length_eq_zero.mp id⟩
    · intro _
      rfl
  · rw [if_neg h]
    constructor
    · intro hcontra
      by_cases hrk : rk = RetKind.urlSearchParams
      · rw [if_pos hrk] at hcontra
        exact Except.noConfusion hcontra
      · rw [if_neg hrk] at hcontra
        exact Except.noConfusion hcontra
    · intro hr
      exact absurd ⟨hr.1, hr.2.imp List.length_eq_zero.mpr id⟩ h

/-- C3 counterexample: `stringifyParams({a:[1,2]}, {arrayType:'comma',
returnType:'string'})` does not return `'a=1%2C2'`. -/
theorem stringifyParams_comma_cex :
    stringifyParams [("a".toList, JSVal.arr [JSPrim.num 1, JSPrim.num 2])]
        "&".toList ArrayMode.comma RetKind.str ≠
      Except.ok (StringifyResult.str "a=1%2C2".toList) := by
  decide

/-- C3 amended: in comma mode the elements are percent-encoded
individually and joined with a literal (unencoded) comma, so
`stringifyParams({a:[1,2]}, {arrayType:'comma', returnType:'string'})`
returns `'a=1,2'`. -/
theorem stringifyParams_comma_literal :
    stringifyParams [("a".toList, JSVal.arr [JSPrim.num 1, JSPrim.num 2])]
        "&".toList ArrayMode.comma RetKind.str =
      Except.ok (StringifyResult.str "a=1,2".toList) := by
  decide

/-- Base-36 digit character, as produced by JavaScript
`Number.prototype.toString(36)`: `0-9` then `a-z`. -/
def digitChar36 (d : Nat) : Char :=
  if d < 10 then Char.ofNat (48 + d) else Char.ofNat (87 + d)

/-- Little-endian base-36 digits of `n`, with a structural fuel (a
number `n ≥ 1` has at most `n` base-36 digits, so fuel `n` is always
enough). -/
def toBase36Aux : Nat → Nat → List Char
  | 0, _ => []
  | fuel + 1, n => if n = 0 then [] else digitChar36 (n % 36) :: toBase36Aux fuel (n / 36)

/-- Model of JavaScript `n.toString(36)` for a non-negative integer. -/
def toBase36 (n : Nat) : List Char :=
  if n = 0 then ['0'] else (toBase36Aux n n).reverse

/-- The fuel-based digit expansion agrees with `Nat.digits 36` whenever
the fuel is at least the number. -/
theorem toBase36Aux_eq_digits : ∀ fuel n, n ≤ fuel →
    toBase36Aux fuel n = (Nat.digits 36 n).map digitChar36
  | 0, n, h => by
    have hn : n = 0 := Nat.le_zero.mp h
    subst hn
    simp [toBase36Aux]
  | fuel + 1, n, h => by
    by_cases hn : n = 0
    · subst hn
      simp [toBase36Aux]
    · have hd : Nat.digits 36 n = n % 36 :: Nat.digits 36 (n / 36) :=
        Nat.digits_def' (by norm_num) (Nat.pos_of_ne_zero hn)
      have hlt : n / 36 < n := Nat.div_lt_self (Nat.pos_of_ne_zero hn) (by norm_num)
      have hrec : n / 36 ≤ fuel := by omega
      simp only [toBase36Aux, hn, if_false, hd, List.map_cons]
      rw [toBase36Aux_eq_digits fuel (n / 36) hrec]

/-- The base-36 representation of `n` has `Nat.log 36 n + 1` digits. -/
theorem toBase36_length (n : Nat) : (toBase36 n).length = Nat.log 36 n + 1 := by
  by_cases h : n = 0
  · subst h
    simp [toBase36]
  · unfold toBase36
    rw [if_neg h, toBase36Aux_eq_digits n n le_rfl]
    simp [Nat.digits_len 36 n (by norm_num) h]

/-- The base-36 representation is never the empty string. -/
theorem toBase36_ne_nil (n : Nat) : toBase36 n ≠ [] := by
  intro hc
  have hl := toBase36_length n
  rw [hc] at hl
  simp at hl

/-- Model of JavaScript `s.padStart(2, '0')`. -/
def pad2 (s : List Char) : List Char :=
  if s.length < 2 then List.replicate (2 - s.length) '0' ++ s else s

/-- A byte below 256 always encodes to exactly two characters under
`b.toString(36).padStart(2, '0')`. -/
theorem pad2_toBase36_length {b : Nat} (hb : b < 256) : (pad2 (toBase36 b)).length = 2 := by
  have h1 : (toBase36 b).length = Nat.log 36 b + 1 := toBase36_length b
  have h2 : Nat.log 36 b ≤ 1 := by
    by_cases hb0 : b = 0
    · subst hb0
      simp
    · have hp : (36 : ℕ) ^ 2 = 1296 := by norm_num
      have := Nat.log_lt_of_lt_pow hb0 (show b < 36 ^ 2 by omega)
      omega
  unfold pad2
  by_cases hlt : (toBase36 b).length < 2
  · rw [if_pos hlt]
    simp only [List.length_append, List.length_replicate]
    omega
  · rw [if_neg hlt]
    omega

/-- Total length of the byte-wise base-36 encoding: two characters per
byte. -/
theorem flatten_pad2_length (bytes : List Nat) (h : ∀ b ∈ bytes, b < 256) :
    ((bytes.map (fun b => pad2 (toBase36 b))).flatten).length = 2 * bytes.length := by
  induction bytes with
  | nil => simp
  | cons b bs ih =>
    simp only [List.map_cons, List.flatten_cons, List.length_append, List.length_cons]
    rw [pad2_toBase36_length (h b (List.mem_cons_self b bs)),
      ih (fun x hx => h x (List.mem_cons_of_mem b hx))]
    omega

/-- Embedding of `uuidGenerator` from `src/utils/uuid-generator.ts`.
The random UUID and the v5 hash come from the external `@tfpkgr/uuid`
package, so they are taken as arguments (`rid` and `hash`); `pre`,
`suf` and `separator` are the options after defaulting (`options.x ||
''`, so an absent option is the empty string).  The trailing trim is
`result.slice(0, -separator.length)` and the leading trim is
`result.slice(separator.length)`. -/
def uuidGenerator (hash rid pre suf separator : List Char) : List Char :=
  let r1 := if pre.isEmpty then [] else pre ++ separator
  let r2 := r1 ++ (if hash.isEmpty then [] else hash ++ separator)
  let r3 := r2 ++ (if rid.isEmpty then [] else rid ++ separator)
  let r4 := r3 ++ (if suf.isEmpty then [] else suf)
  let r5 := if separator.isSuffixOf r4 then jsSliceToNeg r4 separator.length else r4
  if separator.isPrefixOf r5 then r5.drop separator.length else r5

/-- C1 (code bug): with the default empty separator `uuidGenerator`
always returns the empty string, whatever the hash, random id, prefix
and suffix are: `result.endsWith('')` is always true and
`result.slice(0, -0)` is `result.slice(0, 0)`, the empty string, so the
trailing trim deletes the whole result. -/
theorem uuidGenerator_empty_sep (hash rid pre suf : List Char) :
    uuidGenerator hash rid pre suf [] = [] := by
  simp [uuidGenerator, jsSliceToNeg, List.isSuffixOf, List.isPrefixOf]

/-- Embedding of `generateUniqueId` from `src/utils/uuid-generator.ts`.
`now` models `Date.now()` (milliseconds since the epoch) and
`randomBytes` models the `length` bytes drawn by
`crypto.getRandomValues(new Uint8Array(length))`; `pre` and `suf` model
the optional prefix and suffix (`[]` for absent or empty, matching
JavaScript truthiness). -/
def generateUniqueId (now : Nat) (randomBytes : List Nat) (len : Nat)
    (pre suf : List Char) : Except Unit (List Char) :=
  let timestamp := toBase36 now
  if len < timestamp.length then Except.error ()
  else
    let randomPart := ((randomBytes.map (fun b => pad2 (toBase36 b))).flatten).take len
    let coreId := timestamp ++ randomPart
    let parts := (if pre.isEmpty then [] else [pre]) ++ [coreId] ++
      (if suf.isEmpty then [] else [suf])
    Except.ok (List.intercalate ['_'] parts)

/-- C5: `generateUniqueId` fails (with the InvalidLength error and no
result) exactly when the requested length is strictly smaller than the
number of base-36 digits of the current time in milliseconds. -/
theorem generateUniqueId_error_iff (now : Nat) (bytes : List Nat) (len : Nat)
    (pre suf : List Char) :
    generateUniqueId now bytes len pre suf = Except.error () ↔
      len < Nat.log 36 now + 1 := by
  unfold generateUniqueId
  by_cases h : len < Nat.log 36 now + 1
  · rw [if_pos (by rw [toBase36_length]; exact h)]
    simp [h]
  · rw [if_neg (by rw [toBase36_length]; exact h)]
    simp [h]

/-- C6: for a length at least the timestamp length and `length` random
bytes, `generateUniqueId` returns the underscore-join of the non-empty
components among prefix, core id and suffix, where the core id is the
base-36 timestamp followed directly by the per-byte two-character
base-36 encoding truncated to exactly `length` characters. -/
theorem generateUniqueId_ok (now : Nat) (bytes : List Nat) (len : Nat)
    (pre suf : List Char)
    (hlen : (toBase36 now).length ≤ len) (hbytes : bytes.length = len)
    (hrange : ∀ b ∈ bytes, b < 256) :
    generateUniqueId now bytes len pre suf =
      Except.ok (List.intercalate ['_']
        (([pre,
           toBase36 now ++ ((bytes.map (fun b => pad2 (toBase36 b))).flatten).take len,
           suf]).filter (fun x => !x.isEmpty))) ∧
    (((bytes.map (fun b => pad2 (toBase36 b))).flatten).take len).length = len := by
  have hnotlt : ¬ (len < (toBase36 now).length) := by omega
  have hcore : (toBase36 now ++
      ((bytes.map (fun b => pad2 (toBase36 b))).flatten).take len).isEmpty = false := by
    cases hcn : toBase36 now with
    | nil => exact absurd hcn (toBase36_ne_nil now)
    | cons a l => simp [hcn]
  constructor
  · unfold generateUniqueId
    rw [if_neg hnotlt]
    cases hp : pre.isEmpty <;> cases hs : suf.isEmpty <;>
      simp [List.filter, hp, hs, hcore]
  · rw [List.length_take, flatten_pad2_length bytes hrange, hbytes]
    omega

/-- Witness for C6 at `now = 36` (timestamp `'10'`), bytes
`[0, 255, 35]` (encodings `'00'`, `'73'`, `'0z'`), length 3, prefix
`'ab'`, no suffix: the result is `'ab_10007'`. -/
theorem generateUniqueId_ok_witness :
    generateUniqueId 36 [0, 255, 35] 3 "ab".toList [] = Except.ok "ab_10007".toList :=
  ((generateUniqueId_ok 36 [0, 255, 35] 3 "ab".toList []
    (by decide) (by decide) (by decide)).1).trans (by decide)

/-- The characters kept by the phone normalization and re-applied by
the formatting loop: digits and `'+'` (the JavaScript tests `/\d/` and
`char === '+'`, and the normalization class `[^\d+]`). -/
def isSpecialChar (c : Char) : Bool := c.isDigit || c == '+'

/-- Embedding of `this._string.replace(/[^\d+]/g, '')`: keep only
digits and `'+'`. -/
def normalizePhone (s : List Char) : List Char := s.filter isSpecialChar

/-- A digit in `1-9`. -/
def isNonZeroDigit (c : Char) : Bool := c.isDigit && c != '0'

/-- Matching of `[1-9]\d{1,14}` against a whole string. -/
def phoneDigitsOk : List Char → Bool
  | [] => false
  | c :: rest =>
    isNonZeroDigit c && rest.all Char.isDigit &&
      decide (1 ≤ rest.length) && decide (rest.length ≤ 14)

/-- Embedding of `phoneRegex.test`, for `/^\+?[1-9]\d{1,14}$/`: an
optional leading `'+'` followed by a nonzero digit and 1 to 14 further
digits. -/
def phoneValid : List Char → Bool
  | '+' :: t => phoneDigitsOk t
  | t => phoneDigitsOk t

/-- Embedding of the re-formatting loop of `Obscure.phone()`: walk the
original string; a digit or `'+'` consumes the next character of the
obscured normalized string, anything else is kept as is.  When the
obscured string is exhausted, JavaScript reads `obscuredPhone[i]` as
`undefined` and appends the text `undefined` (unreachable for the
inputs `phone` produces, but modelled faithfully). -/
def reapply : List Char → List Char → List Char
  | [], _ => []
  | c :: cs, obs =>
    if isSpecialChar c then
      match obs with
      | o :: os => o :: reapply cs os
      | [] => "undefined".toList ++ reapply cs []
    else c :: reapply cs obs

/-- Embedding of `Obscure.phone()` from `unnamed/part_001`: normalize,
validate against the E.164-like pattern, fall back to
`obscure(str, 2, 2)` on failure, otherwise obscure the normalized
number and re-apply the original formatting. -/
def phone (s : List Char) : List Char :=
  if phoneValid (normalizePhone s) = false then obscure s 2 2 ['*']
  else reapply s (obscure (normalizePhone s) 2 2 ['*'])

/-- Obscuring with the one-character mask `'*'` and two visible
characters on both sides preserves the length. -/
theorem obscure_star_length (n : List Char) : (obscure n 2 2 ['*']).length = n.length := by
  unfold obscure
  by_cases h : n.length ≤ 2 + 2
  · rw [if_pos h]
  · rw [if_neg h]
    simp [jsSliceNeg, length_join_replicate]
    omega

/-- The re-formatting loop preserves the length as long as the obscured
string has at least one character per special position. -/
theorem reapply_length (s obs : List Char)
    (h : (s.filter isSpecialChar).length ≤ obs.length) :
    (reapply s obs).length = s.length := by
  induction s generalizing obs with
  | nil => simp [reapply]
  | cons c cs ih =>
    by_cases hc : isSpecialChar c = true
    · rw [List.filter_cons_of_pos hc] at h
      cases obs with
      | nil => simp at h
      | cons o os =>
        simp only [reapply, hc, if_true, List.length_cons]
        rw [ih os (by simpa using h)]
    · rw [List.filter_cons_of_neg (by simpa using hc)] at h
      simp only [reapply, hc, Bool.false_eq_true, if_false, List.length_cons]
      rw [ih obs h]

/-- Characters at non-special positions are passed through unchanged by
the re-formatting loop. -/
theorem reapply_getD_not_special (s obs : List Char) (i : Nat)
    (h : (s.filter isSpecialChar).length ≤ obs.length) (hi : i < s.length)
    (hns : isSpecialChar (s.getD i ' ') = false) :
    (reapply s obs).getD i ' ' = s.getD i ' ' := by
  induction s generalizing obs i with
  | nil => simp at hi
  | cons c cs ih =>
    by_cases hc : isSpecialChar c = true
    · rw [List.filter_cons_of_pos hc] at h
      cases obs with
      | nil => simp at h
      | cons o os =>
        simp only [reapply, hc, if_true]
        cases i with
        | zero =>
          rw [List.getD_cons_zero] at hns
          exact absurd hc (by simp [hns])
        | succ j =>
          rw [List.getD_cons_succ] at hns ⊢
          rw [List.getD_cons_succ]
          exact ih os j (by simpa using h) (by simpa using hi) hns
    · rw [List.filter_cons_of_neg (by simpa using hc)] at h
      simp only [reapply, hc, Bool.false_eq_true, if_false]
      cases i with
      | zero =>
        rw [List.getD_cons_zero, List.getD_cons_zero]
      | succ j =>
        rw [List.getD_cons_succ] at hns ⊢
        rw [List.getD_cons_succ]
        exact ih obs j h (by simpa using hi) hns

/-- A character at a special position is replaced by the character of
the obscured string whose index is the number of special positions
before it. -/
theorem reapply_getD_special (s obs : List Char) (i : Nat)
    (h : (s.filter isSpecialChar).length ≤ obs.length) (hi : i < s.length)
    (hsp : isSpecialChar (s.getD i ' ') = true) :
    (reapply s obs).getD i ' ' = obs.getD ((s.take i).filter isSpecialChar).length ' ' := by
  induction s generalizing obs i with
  | nil => simp at hi
  | cons c cs ih =>
    by_cases hc : isSpecialChar c = true
    · rw [List.filter_cons_of_pos hc] at h
      cases obs with
      | nil => simp at h
      | cons o os =>
        simp only [reapply, hc, if_true]
        cases i with
        | zero =>
          simp
        | succ j =>
          rw [List.getD_cons_succ] at hsp
          rw [List.getD_cons_succ, List.take_succ_cons, List.filter_cons_of_pos hc,
            List.length_cons, List.getD_cons_succ]
          exact ih os j (by simpa using h) (by simpa using hi) hsp
    · rw [List.filter_cons_of_neg (by simpa using hc)] at h
      simp only [reapply, hc, Bool.false_eq_true, if_false]
      cases i with
      | zero =>
        rw [List.getD_cons_zero] at hsp
        exact absurd hsp (by simpa using hc)
      | succ j =>
        rw [List.getD_cons_succ] at hsp
        rw [List.getD_cons_succ, List.take_succ_cons,
          List.filter_cons_of_neg (by simpa using hc)]
        exact ih obs j h (by simpa using hi) hsp

/-- C7: on strings whose normalization passes the E.164-like
validation, `phone` keeps the length, keeps every non-digit, non-plus
character in place, and replaces the digit or plus characters, in
order, by the successive characters of
`obscure(normalized, 2, 2, '*')`. -/
theorem phone_layout (s : List Char) (h : phoneValid (normalizePhone s) = true) :
    (phone s).length = s.length ∧
    (∀ i, i < s.length → isSpecialChar (s.getD i ' ') = false →
      (phone s).getD i ' ' = s.getD i ' ') ∧
    (∀ i, i < s.length → isSpecialChar (s.getD i ' ') = true →
      (phone s).getD i ' ' =
        (obscure (normalizePhone s) 2 2 ['*']).getD (normalizePhone (s.take i)).length ' ') := by
  have hphone : phone s = reapply s (obscure (normalizePhone s) 2 2 ['*']) := by
    unfold phone
    rw [h]
    simp
  have hlen : (s.filter isSpecialChar).length ≤ (obscure (normalizePhone s) 2 2 ['*']).length := by
    rw [obscure_star_length]
    exact le_rfl
  refine ⟨?_, ?_, ?_⟩
  · rw [hphone]
    exact reapply_length s _ hlen
  · intro i hi hns
    rw [hphone]
    exact reapply_getD_not_special s _ i hlen hi hns
  · intro i hi hsp
    rw [hphone]
    exact reapply_getD_special s _ i hlen hi hsp

/-- Witness for C7 at the formatted number `'12-345'` (normalization
`'12345'`, which passes validation): the output keeps the length 6. -/
theorem phone_layout_witness : (phone "12-345".toList).length = 6 :=
  ((phone_layout "12-345".toList (by decide)).1).trans (by decide)

end TfUtils
